import Mathlib

/-!
Verification of `createEnum` from src/src/createEnum.js:

  export const createEnum = (obj, options = {}) =>
    Object.entries(obj).reduce(
      (acc, [key, value], index) => ({
        ...acc,
        [key]: {
          ...options.defaultFields,
          name: key,
          index,
          ...value,
        },
      }),
      {}
    );

We use two shallow embeddings:

* a pure model, where a JavaScript object is an ordered association list
  `List (String × JsVal)` (keys in insertion order; the spec's data model
  is an ordered mapping with string keys, so the array-index key
  reordering of JS engines does not arise);
* a heap model (`HVal`/`JsHeap`, further below), where objects live at
  numeric addresses and object literals allocate fresh cells, used for the
  aliasing / non-mutation claims.

Property definition `{...t, k: v}` updates an existing key in place
(keeping its position) and appends a new key at the end; spreading an
object copies its own enumerable entries in order (values copied
shallowly); spreading `undefined`, `null`, booleans and numbers
contributes nothing, spreading a string contributes its indexed
characters.  A missing property reads as `undefined`.
-/

section FieldOps

variable {α : Type}

/-- JS property definition on an ordered field list: update in place if the
key is present, append otherwise. -/
def setF : List (String × α) → String → α → List (String × α)
  | [], k, v => [(k, v)]
  | p :: t, k, v => if p.1 = k then (k, v) :: t else p :: setF t k v

/-- First binding of a key, if any. -/
def getF? : List (String × α) → String → Option α
  | [], _ => none
  | p :: t, k => if p.1 = k then some p.2 else getF? t k

/-- The keys of a field list, in order. -/
def keysF (t : List (String × α)) : List String :=
  t.map Prod.fst

/-- Spreading a field list into a target object: define each field in
order (`{...target, ...fields}`). -/
def spreadF (target fields : List (String × α)) : List (String × α) :=
  fields.foldl (fun a p => setF a p.1 p.2) target

@[simp] theorem keysF_nil : keysF ([] : List (String × α)) = [] := rfl

@[simp] theorem keysF_cons (p : String × α) (t : List (String × α)) :
    keysF (p :: t) = p.1 :: keysF t := rfl

theorem keysF_append (t s : List (String × α)) :
    keysF (t ++ s) = keysF t ++ keysF s := by
  simp [keysF]

@[simp] theorem getF?_setF_self (t : List (String × α)) (k : String) (v : α) :
    getF? (setF t k v) k = some v := by
  induction t with
  | nil => simp [setF, getF?]
  | cons p t ih =>
    by_cases h : p.1 = k
    · simp [setF, getF?, h]
    · simp [setF, getF?, h, ih]

theorem getF?_setF_ne (t : List (String × α)) (k k' : String) (v : α)
    (h : k' ≠ k) : getF? (setF t k' v) k = getF? t k := by
  induction t with
  | nil => simp [setF, getF?, h]
  | cons p t ih =>
    by_cases hp : p.1 = k'
    · simp [setF, getF?, hp, h, fun hh => h (hp ▸ hh)]
    · simp only [setF, hp, if_false, getF?]
      by_cases hk : p.1 = k <;> simp [hk, ih]

theorem setF_eq_append (t : List (String × α)) (k : String) (v : α)
    (h : k ∉ keysF t) : setF t k v = t ++ [(k, v)] := by
  induction t with
  | nil => simp [setF]
  | cons p t ih =>
    simp only [keysF_cons, List.mem_cons] at h
    push_neg at h
    have hp : ¬p.1 = k := fun hh => h.1 hh.symm
    simp [setF, hp, ih h.2]

theorem keysF_setF (t : List (String × α)) (k : String) (v : α) :
    keysF (setF t k v) = if k ∈ keysF t then keysF t else keysF t ++ [k] := by
  induction t with
  | nil => simp [setF]
  | cons p t ih =>
    by_cases h : p.1 = k
    · simp [setF, h]
    · have h' : ¬k = p.1 := fun hh => h hh.symm
      simp only [setF, h, if_false, keysF_cons, ih, List.mem_cons, h']
      by_cases hk : k ∈ keysF t <;> simp [hk]

theorem mem_keysF_setF (t : List (String × α)) (k k' : String) (v : α) :
    k ∈ keysF (setF t k' v) ↔ k ∈ keysF t ∨ k = k' := by
  rw [keysF_setF]
  by_cases h : k' ∈ keysF t
  · simp only [h, if_true]
    constructor
    · exact fun hk => Or.inl hk
    · rintro (hk | rfl) <;> [exact hk; exact h]
  · simp [h, or_comm]

theorem spreadF_nil_fields (t : List (String × α)) : spreadF t [] = t := rfl

theorem spreadF_cons (t : List (String × α)) (p : String × α)
    (fs : List (String × α)) :
    spreadF t (p :: fs) = spreadF (setF t p.1 p.2) fs := rfl

theorem spreadF_eq_append (t fs : List (String × α))
    (hnd : (keysF fs).Nodup) (hdis : ∀ k ∈ keysF fs, k ∉ keysF t) :
    spreadF t fs = t ++ fs := by
  induction fs generalizing t with
  | nil => simp [spreadF]
  | cons p fs ih =>
    simp only [keysF_cons, List.nodup_cons] at hnd
    rw [spreadF_cons, setF_eq_append t p.1 p.2
      (hdis p.1 (by simp) : p.1 ∉ keysF t)]
    rw [ih _ hnd.2]
    · simp
    · intro k hk
      rw [keysF_append]
      simp only [List.mem_append, keysF_cons]
      rintro (hkt | hkp)
      · exact hdis k (by simp [hk]) hkt
      · simp only [keysF, List.map_cons, List.map_nil, List.mem_cons,
          List.not_mem_nil, or_false] at hkp
        exact hnd.1 (hkp ▸ hk)

theorem getF?_spreadF_not_mem (t fs : List (String × α)) (k : String)
    (h : k ∉ keysF fs) : getF? (spreadF t fs) k = getF? t k := by
  induction fs generalizing t with
  | nil => simp [spreadF]
  | cons p fs ih =>
    simp only [keysF_cons, List.mem_cons] at h
    push_neg at h
    rw [spreadF_cons, ih _ h.2, getF?_setF_ne _ _ _ _ (fun hh => h.1 hh.symm)]

theorem getF?_spreadF_mem (t fs : List (String × α)) (k : String) (v : α)
    (hnd : (keysF fs).Nodup) (hmem : (k, v) ∈ fs) :
    getF? (spreadF t fs) k = some v := by
  induction fs generalizing t with
  | nil => cases hmem
  | cons p fs ih =>
    simp only [keysF_cons, List.nodup_cons] at hnd
    rcases List.mem_cons.1 hmem with rfl | hmem'
    · rw [spreadF_cons, getF?_spreadF_not_mem _ _ _ hnd.1, getF?_setF_self]
    · have : k ∈ keysF fs := by
        simpa [keysF] using List.mem_map_of_mem Prod.fst hmem'
      rw [spreadF_cons]
      exact ih _ hnd.2 hmem'

theorem mem_keysF_spreadF (t fs : List (String × α)) (k : String) :
    k ∈ keysF (spreadF t fs) ↔ k ∈ keysF t ∨ k ∈ keysF fs := by
  induction fs generalizing t with
  | nil => simp [spreadF]
  | cons p fs ih =>
    rw [spreadF_cons, ih]
    rw [mem_keysF_setF]
    simp only [keysF_cons, List.mem_cons]
    tauto

end FieldOps

/-- A JavaScript value, as far as this library exercises the language:
primitives and (ordered) plain objects. -/
inductive JsVal : Type where
  | undef : JsVal
  | nullV : JsVal
  | boolV (b : Bool) : JsVal
  | num (n : Int) : JsVal
  | str (s : String) : JsVal
  | obj (fields : List (String × JsVal)) : JsVal

/-- An object in the pure model: its own enumerable fields, in insertion
order. -/
abbrev JsObj := List (String × JsVal)

/-- Property read: a missing property is `undefined`. -/
def getField (o : JsObj) (k : String) : JsVal :=
  (getF? o k).getD JsVal.undef

/-- The fields contributed by spreading a string: its characters under
their decimal indices. -/
def strFields (s : String) : JsObj :=
  s.data.enum.map (fun p => (toString p.1, JsVal.str (String.mk [p.2])))

/-- Spread of an arbitrary value into an object literal (`{...t, ...v}`):
objects contribute their fields, strings their characters, every other
primitive contributes nothing. -/
def spreadInto (t : JsObj) : JsVal → JsObj
  | JsVal.obj fs => spreadF t fs
  | JsVal.str s => spreadF t (strFields s)
  | _ => t

/-- The entry literal of createEnum.js:
`{...options.defaultFields, name: key, index, ...value}`, with `df` the
value of `options.defaultFields`. -/
def mkEntry (df : JsVal) (key : String) (index : Nat) (value : JsVal) : JsObj :=
  spreadInto
    (setF (setF (spreadInto [] df) "name" (JsVal.str key)) "index"
      (JsVal.num index))
    value

/-- The pure model of `createEnum` (src/src/createEnum.js):
`Object.entries(obj)` is the field list of `obj`, `reduce` with the index
argument is a fold over the enumerated list, and each step builds
`{...acc, [key]: {...options.defaultFields, name: key, index, ...value}}`. -/
def createEnum (obj : JsObj) (options : JsObj) : JsObj :=
  obj.enum.foldl
    (fun acc p =>
      setF (spreadInto [] (JsVal.obj acc)) p.2.1
        (JsVal.obj (mkEntry (getField options "defaultFields") p.2.1 p.1 p.2.2)))
    []

/-- `output[k].f` : read field `f` of the entry stored under `k`. -/
def getField2 (t : JsObj) (k f : String) : JsVal :=
  match getField t k with
  | JsVal.obj fs => getField fs f
  | _ => JsVal.undef

/-- The keys that spreading a value defines (the fields an entry's spec
carries, for an object spec). -/
def spreadKeys : JsVal → List String
  | JsVal.obj fs => keysF fs
  | JsVal.str s => keysF (strFields s)
  | _ => []

/-- The reduce of createEnum.js, started from any accumulator whose keys
are disjoint from the remaining keys, appends one entry per key. -/
theorem createEnum_foldl_general (options : JsObj) (l : JsObj) (n : Nat)
    (acc : JsObj) (hacc : (keysF acc).Nodup) (hnd : (keysF l).Nodup)
    (hdis : ∀ k ∈ keysF l, k ∉ keysF acc) :
    (l.enumFrom n).foldl
      (fun acc p =>
        setF (spreadInto [] (JsVal.obj acc)) p.2.1
          (JsVal.obj (mkEntry (getField options "defaultFields") p.2.1 p.1 p.2.2)))
      acc
    = acc ++ (l.enumFrom n).map
        (fun p => (p.2.1,
          JsVal.obj (mkEntry (getField options "defaultFields") p.2.1 p.1 p.2.2))) := by
  induction l generalizing n acc with
  | nil => simp
  | cons q t ih =>
    obtain ⟨k, v⟩ := q
    simp only [keysF_cons, List.nodup_cons] at hnd
    have hk : k ∉ keysF acc := hdis k (by simp)
    have hspread : spreadInto [] (JsVal.obj acc) = acc := by
      simpa [spreadInto] using spreadF_eq_append [] acc hacc (by simp)
    rw [List.enumFrom_cons, List.foldl_cons]
    simp only [hspread]
    rw [setF_eq_append acc k _ hk]
    rw [ih (n + 1) (acc ++ [(k, JsVal.obj (mkEntry (getField options "defaultFields") k n v))])]
    · simp
    · rw [keysF_append]
      simp only [List.nodup_append, keysF_cons, keysF_nil, List.nodup_cons]
      refine ⟨hacc, by simp, ?_⟩
      intro a ha
      simp only [List.mem_cons, List.not_mem_nil, or_false]
      exact fun hh => (hh ▸ hk) ha
    · exact hnd.2
    · intro a ha
      rw [keysF_append]
      simp only [List.mem_append, keysF_cons, keysF_nil, List.mem_cons,
        List.not_mem_nil, or_false]
      rintro (h1 | rfl)
      · exact hdis a (by simp [ha]) h1
      · exact hnd.1 ha

/-- With distinct keys (JS objects have distinct keys by construction),
createEnum is the entrywise map. -/
theorem createEnum_eq_map (obj options : JsObj) (hnd : (keysF obj).Nodup) :
    createEnum obj options
    = obj.enum.map
        (fun p => (p.2.1,
          JsVal.obj (mkEntry (getField options "defaultFields") p.2.1 p.1 p.2.2))) := by
  have := createEnum_foldl_general options obj 0 [] (by simp) hnd (by simp)
  simpa [createEnum, List.enum] using this

theorem getF?_get_of_nodup (l : JsObj) (hnd : (keysF l).Nodup) (i : Nat)
    (hi : i < l.length) :
    getF? l (l.get ⟨i, hi⟩).1 = some (l.get ⟨i, hi⟩).2 := by
  induction l generalizing i with
  | nil => cases hi
  | cons p t ih =>
    cases i with
    | zero => simp [getF?]
    | succ j =>
      simp only [List.nodup_cons, keysF_cons] at hnd
      have hj : j < t.length := Nat.lt_of_succ_lt_succ hi
      have hmem : (t.get ⟨j, hj⟩).1 ∈ keysF t :=
        List.mem_map_of_mem Prod.fst (List.get_mem t j hj)
      have hne : ¬p.1 = (t.get ⟨j, hj⟩).1 := fun hh => hnd.1 (hh ▸ hmem)
      have hgc : (p :: t).get ⟨j + 1, hi⟩ = t.get ⟨j, hj⟩ := rfl
      rw [hgc]
      show (if p.1 = (t.get ⟨j, hj⟩).1 then some p.2
        else getF? t (t.get ⟨j, hj⟩).1) = some (t.get ⟨j, hj⟩).2
      rw [if_neg hne]
      exact ih hnd.2 j hj

/-- The entry stored under the i-th key of the input is exactly the entry
literal evaluated at that key, index and spec. -/
theorem createEnum_entry (obj options : JsObj) (hnd : (keysF obj).Nodup)
    (i : Nat) (hi : i < obj.length) :
    getF? (createEnum obj options) (obj.get ⟨i, hi⟩).1
    = some (JsVal.obj
        (mkEntry (getField options "defaultFields") (obj.get ⟨i, hi⟩).1 i
          (obj.get ⟨i, hi⟩).2)) := by
  rw [createEnum_eq_map obj options hnd]
  set fn := fun p : Nat × (String × JsVal) =>
    (p.2.1, JsVal.obj (mkEntry (getField options "defaultFields") p.2.1 p.1 p.2.2))
    with hfn
  have hlen : (obj.enum.map fn).length = obj.length := by simp
  have hkeys : keysF (obj.enum.map fn) = keysF obj := by
    simp only [keysF, List.map_map]
    have : (Prod.fst ∘ fn) = (fun p : Nat × (String × JsVal) => p.2.1) := rfl
    rw [this]
    have : (fun p : Nat × (String × JsVal) => p.2.1)
        = (Prod.fst ∘ Prod.snd) := rfl
    rw [this, ← List.map_map, List.enum_map_snd]
  have hget : (obj.enum.map fn).get ⟨i, by omega⟩
      = fn (i, obj.get ⟨i, hi⟩) := by
    simp [List.get_eq_getElem, List.getElem_map, List.getElem_enum]
  have := getF?_get_of_nodup (obj.enum.map fn) (hkeys ▸ hnd) i (by omega)
  rw [hget] at this
  exact this

theorem getF?_spreadInto_not_mem (t : JsObj) (v : JsVal) (f : String)
    (h : f ∉ spreadKeys v) : getF? (spreadInto t v) f = getF? t f := by
  cases v with
  | obj fs => exact getF?_spreadF_not_mem t fs f h
  | str s => exact getF?_spreadF_not_mem t (strFields s) f h
  | undef => rfl
  | nullV => rfl
  | boolV b => rfl
  | num n => rfl

theorem mem_keysF_spreadInto (t : JsObj) (v : JsVal) (f : String)
    (h : f ∈ spreadKeys v) : f ∈ keysF (spreadInto t v) := by
  cases v with
  | obj fs => exact (mem_keysF_spreadF t fs f).2 (Or.inr h)
  | str s => exact (mem_keysF_spreadF t (strFields s) f).2 (Or.inr h)
  | undef => cases h
  | nullV => cases h
  | boolV b => cases h
  | num n => cases h

/-- When the spec does not define `name`, the entry's `name` is the key. -/
theorem mkEntry_name (df : JsVal) (k : String) (i : Nat) (v : JsVal)
    (hn : "name" ∉ spreadKeys v) :
    getF? (mkEntry df k i v) "name" = some (JsVal.str k) := by
  unfold mkEntry
  rw [getF?_spreadInto_not_mem _ _ _ hn]
  rw [getF?_setF_ne _ _ _ _ (by decide)]
  exact getF?_setF_self _ _ _

/-- When the spec does not define `index`, the entry's `index` is the
position. -/
theorem mkEntry_index (df : JsVal) (k : String) (i : Nat) (v : JsVal)
    (hx : "index" ∉ spreadKeys v) :
    getF? (mkEntry df k i v) "index" = some (JsVal.num i) := by
  unfold mkEntry
  rw [getF?_spreadInto_not_mem _ _ _ hx]
  exact getF?_setF_self _ _ _

/-- Fields of the entry's own spec always survive the merge. -/
theorem mkEntry_spec_mem (df : JsVal) (k : String) (i : Nat) (spec : JsObj)
    (hnd : (keysF spec).Nodup) (f : String) (w : JsVal) (hmem : (f, w) ∈ spec) :
    getF? (mkEntry df k i (JsVal.obj spec)) f = some w :=
  getF?_spreadF_mem _ spec f w hnd hmem

/-- A default field that is neither `name` nor `index` and is absent from
the spec survives into the entry. -/
theorem mkEntry_default (dfs : JsObj) (k : String) (i : Nat) (v : JsVal)
    (hnd : (keysF dfs).Nodup) (f : String) (w : JsVal) (hmem : (f, w) ∈ dfs)
    (hfn : f ≠ "name") (hfx : f ≠ "index") (habs : f ∉ spreadKeys v) :
    getF? (mkEntry (JsVal.obj dfs) k i v) f = some w := by
  unfold mkEntry
  rw [getF?_spreadInto_not_mem _ _ _ habs]
  rw [getF?_setF_ne _ _ _ _ (fun hh => hfx hh.symm)]
  rw [getF?_setF_ne _ _ _ _ (fun hh => hfn hh.symm)]
  exact getF?_spreadF_mem _ dfs f w hnd hmem

/-- Keys defined by the spec are present in the entry. -/
theorem mem_keysF_mkEntry (df : JsVal) (k : String) (i : Nat) (v : JsVal)
    (f : String) (h : f ∈ spreadKeys v) : f ∈ keysF (mkEntry df k i v) :=
  mem_keysF_spreadInto _ _ _ h

theorem getField2_of_entry {t : JsObj} {k : String} {e : JsObj}
    (h : getF? t k = some (JsVal.obj e)) (f : String) :
    getField2 t k f = getField e f := by
  simp [getField2, getField, h]

theorem getField_of_getF? {e : JsObj} {f : String} {w : JsVal}
    (h : getF? e f = some w) : getField e f = w := by
  simp [getField, h]

theorem getF?_mem_of_mem_keysF {α : Type} (t : List (String × α)) (f : String)
    (h : f ∈ keysF t) : ∃ w, getF? t f = some w ∧ (f, w) ∈ t := by
  induction t with
  | nil => cases h
  | cons p t ih =>
    by_cases hp : p.1 = f
    · exact ⟨p.2, by simp [getF?, hp], by simp [← hp]⟩
    · have h' : f ∈ keysF t := by
        rcases List.mem_cons.1 h with h1 | h1
        · exact absurd h1.symm hp
        · exact h1
      obtain ⟨w, hw1, hw2⟩ := ih h'
      exact ⟨w, by simp [getF?, hp, hw1], List.mem_cons_of_mem _ hw2⟩

/-- C1: for every input mapping whose keys are distinct (as they are for a
JS object), and every position i whose entry spec defines neither `name`
nor `index`, the output has `output[ki].name = ki` and
`output[ki].index = i`, indices 0-based and assigned in iteration order. -/
theorem claim1_name_index (obj options : JsObj) (hnd : (keysF obj).Nodup)
    (i : Nat) (hi : i < obj.length)
    (hn : "name" ∉ spreadKeys (obj.get ⟨i, hi⟩).2)
    (hx : "index" ∉ spreadKeys (obj.get ⟨i, hi⟩).2) :
    getField2 (createEnum obj options) (obj.get ⟨i, hi⟩).1 "name"
      = JsVal.str (obj.get ⟨i, hi⟩).1 ∧
    getField2 (createEnum obj options) (obj.get ⟨i, hi⟩).1 "index"
      = JsVal.num i := by
  have h := createEnum_entry obj options hnd i hi
  rw [getField2_of_entry h, getField2_of_entry h]
  exact ⟨getField_of_getF? (mkEntry_name _ _ _ _ hn),
    getField_of_getF? (mkEntry_index _ _ _ _ hx)⟩

theorem claim1_name_index_witness :
    (keysF [("A", JsVal.obj []), ("B", JsVal.obj [])]).Nodup ∧
    (getField2 (createEnum [("A", JsVal.obj []), ("B", JsVal.obj [])] [])
        "B" "name" = JsVal.str "B" ∧
      getField2 (createEnum [("A", JsVal.obj []), ("B", JsVal.obj [])] [])
        "B" "index" = JsVal.num 1) :=
  ⟨by decide,
    claim1_name_index [("A", JsVal.obj []), ("B", JsVal.obj [])] []
      (by decide) 1 (by decide) (by decide) (by decide)⟩

/-- C2 counterexample: take the input `{A: {}}` with
`defaultFields = {name: "B"}`.  The field `name` is present in
`defaultFields` and absent from entry A's spec, yet the output's `A.name`
is `"A"` (the computed key), not the default `"B"` — so the claim's
quantification over every field f fails at the computed fields. -/
theorem claim2_counterexample :
    ("name" ∈ keysF [("name", JsVal.str "B")]) ∧
    ("name" ∉ spreadKeys (JsVal.obj [])) ∧
    getField [("name", JsVal.str "B")] "name" = JsVal.str "B" ∧
    getField2
        (createEnum [("A", JsVal.obj [])]
          [("defaultFields", JsVal.obj [("name", JsVal.str "B")])])
        "A" "name" = JsVal.str "A" ∧
    JsVal.str "A" ≠ JsVal.str "B" := by
  refine ⟨by decide, by decide, rfl, rfl, fun h => ?_⟩
  exact absurd (JsVal.str.inj h) (by decide)

/-- C2 (amended): the claim holds for every field f other than the two
computed field names `name` and `index`: such an f present in
defaultFields and absent from the entry's spec keeps the default value,
and an f present in both gets the entry's own value (for `name`/`index`
the computed overlay sits between the defaults and the entry's spec, so a
default for them is shadowed by the computed value instead). -/
theorem claim2_defaults (obj options dfs : JsObj) (hnd : (keysF obj).Nodup)
    (hdf : getField options "defaultFields" = JsVal.obj dfs)
    (hdnd : (keysF dfs).Nodup) (i : Nat) (hi : i < obj.length) (f : String) :
    (f ∈ keysF dfs → f ≠ "name" → f ≠ "index" →
      f ∉ spreadKeys (obj.get ⟨i, hi⟩).2 →
      getField2 (createEnum obj options) (obj.get ⟨i, hi⟩).1 f
        = getField dfs f) ∧
    (∀ spec, (obj.get ⟨i, hi⟩).2 = JsVal.obj spec → (keysF spec).Nodup →
      f ∈ keysF dfs → f ∈ keysF spec →
      getField2 (createEnum obj options) (obj.get ⟨i, hi⟩).1 f
        = getField spec f) := by
  have h := createEnum_entry obj options hnd i hi
  rw [hdf] at h
  constructor
  · intro hmem hfn hfx habs
    obtain ⟨w, hw1, hw2⟩ := getF?_mem_of_mem_keysF dfs f hmem
    rw [getField2_of_entry h, getField_of_getF? hw1]
    exact getField_of_getF? (mkEntry_default dfs _ _ _ hdnd f w hw2 hfn hfx habs)
  · intro spec hspec hsnd _ hmem
    obtain ⟨w, hw1, hw2⟩ := getF?_mem_of_mem_keysF spec f hmem
    rw [hspec] at h
    rw [getField2_of_entry h, getField_of_getF? hw1]
    exact getField_of_getF? (mkEntry_spec_mem _ _ _ spec hsnd f w hw2)

theorem claim2_defaults_witness :
    (getField [("defaultFields", JsVal.obj [("canEdit", JsVal.boolV false)])]
        "defaultFields" = JsVal.obj [("canEdit", JsVal.boolV false)]) ∧
    getField2
        (createEnum
          [("VIEWER", JsVal.obj [("label", JsVal.str "Viewer")])]
          [("defaultFields", JsVal.obj [("canEdit", JsVal.boolV false)])])
        "VIEWER" "canEdit"
      = getField [("canEdit", JsVal.boolV false)] "canEdit" :=
  ⟨rfl,
    (claim2_defaults [("VIEWER", JsVal.obj [("label", JsVal.str "Viewer")])]
        [("defaultFields", JsVal.obj [("canEdit", JsVal.boolV false)])]
        [("canEdit", JsVal.boolV false)] (by decide) rfl (by decide) 0
        (by decide) "canEdit").1
      (by decide) (by decide) (by decide) (by decide)⟩

/-- C3: the output has exactly the input's keys, in the input's order, and
the empty input yields the empty output. -/
theorem claim3_keys (obj options : JsObj) (hnd : (keysF obj).Nodup) :
    keysF (createEnum obj options) = keysF obj ∧
    createEnum [] options = [] := by
  refine ⟨?_, rfl⟩
  rw [createEnum_eq_map obj options hnd]
  simp only [keysF, List.map_map]
  have h1 : (Prod.fst ∘ fun p : Nat × (String × JsVal) =>
      (p.2.1, JsVal.obj
        (mkEntry (getField options "defaultFields") p.2.1 p.1 p.2.2)))
      = (Prod.fst ∘ Prod.snd) := rfl
  rw [h1, ← List.map_map, List.enum_map_snd]

theorem claim3_keys_witness :
    (keysF [("RED", JsVal.obj []), ("GREEN", JsVal.obj [])]).Nodup ∧
    keysF (createEnum [("RED", JsVal.obj []), ("GREEN", JsVal.obj [])] [])
      = keysF [("RED", JsVal.obj []), ("GREEN", JsVal.obj [])] ∧
    createEnum [] [] = [] :=
  ⟨by decide,
    claim3_keys [("RED", JsVal.obj []), ("GREEN", JsVal.obj [])] [] (by decide)⟩

/-- C4: an entry spec field literally named `name` (resp. `index`) wins
over the computed key (resp. position), because entry fields are merged
last. -/
theorem claim4_override (obj options : JsObj) (hnd : (keysF obj).Nodup)
    (i : Nat) (hi : i < obj.length) (spec : JsObj)
    (hspec : (obj.get ⟨i, hi⟩).2 = JsVal.obj spec)
    (hsnd : (keysF spec).Nodup) :
    ("name" ∈ keysF spec →
      getField2 (createEnum obj options) (obj.get ⟨i, hi⟩).1 "name"
        = getField spec "name") ∧
    ("index" ∈ keysF spec →
      getField2 (createEnum obj options) (obj.get ⟨i, hi⟩).1 "index"
        = getField spec "index") := by
  have h := createEnum_entry obj options hnd i hi
  rw [hspec] at h
  constructor
  · intro hmem
    obtain ⟨w, hw1, hw2⟩ := getF?_mem_of_mem_keysF spec "name" hmem
    rw [getField2_of_entry h, getField_of_getF? hw1]
    exact getField_of_getF? (mkEntry_spec_mem _ _ _ spec hsnd _ w hw2)
  · intro hmem
    obtain ⟨w, hw1, hw2⟩ := getF?_mem_of_mem_keysF spec "index" hmem
    rw [getField2_of_entry h, getField_of_getF? hw1]
    exact getField_of_getF? (mkEntry_spec_mem _ _ _ spec hsnd _ w hw2)

theorem claim4_override_witness :
    (keysF [("name", JsVal.str "X"), ("index", JsVal.num 7)]).Nodup ∧
    getField2
        (createEnum
          [("A", JsVal.obj [("name", JsVal.str "X"), ("index", JsVal.num 7)])]
          [])
        "A" "name"
      = getField [("name", JsVal.str "X"), ("index", JsVal.num 7)] "name" ∧
    getField2
        (createEnum
          [("A", JsVal.obj [("name", JsVal.str "X"), ("index", JsVal.num 7)])]
          [])
        "A" "index"
      = getField [("name", JsVal.str "X"), ("index", JsVal.num 7)] "index" := by
  have h := claim4_override
    [("A", JsVal.obj [("name", JsVal.str "X"), ("index", JsVal.num 7)])] []
    (by decide) 0 (by decide)
    [("name", JsVal.str "X"), ("index", JsVal.num 7)] rfl (by decide)
  exact ⟨by decide, h.1 (by decide), h.2 (by decide)⟩

/-- C5: even when defaultFields itself carries a `name` or `index` field,
an entry whose spec does not define that field gets the computed key and
position: the computed overlay beats the defaults and loses only to the
entry's own spec. -/
theorem claim5_computed_beats_defaults (obj options dfs : JsObj)
    (hnd : (keysF obj).Nodup)
    (hdf : getField options "defaultFields" = JsVal.obj dfs)
    (i : Nat) (hi : i < obj.length) :
    ("name" ∈ keysF dfs → "name" ∉ spreadKeys (obj.get ⟨i, hi⟩).2 →
      getField2 (createEnum obj options) (obj.get ⟨i, hi⟩).1 "name"
        = JsVal.str (obj.get ⟨i, hi⟩).1) ∧
    ("index" ∈ keysF dfs → "index" ∉ spreadKeys (obj.get ⟨i, hi⟩).2 →
      getField2 (createEnum obj options) (obj.get ⟨i, hi⟩).1 "index"
        = JsVal.num i) := by
  have h := createEnum_entry obj options hnd i hi
  constructor
  · intro _ hn
    rw [getField2_of_entry h]
    exact getField_of_getF? (mkEntry_name _ _ _ _ hn)
  · intro _ hx
    rw [getField2_of_entry h]
    exact getField_of_getF? (mkEntry_index _ _ _ _ hx)

theorem claim5_computed_beats_defaults_witness :
    (getField
        [("defaultFields",
          JsVal.obj [("name", JsVal.str "Z"), ("index", JsVal.num 9)])]
        "defaultFields"
      = JsVal.obj [("name", JsVal.str "Z"), ("index", JsVal.num 9)]) ∧
    getField2
        (createEnum [("A", JsVal.obj [])]
          [("defaultFields",
            JsVal.obj [("name", JsVal.str "Z"), ("index", JsVal.num 9)])])
        "A" "name" = JsVal.str "A" ∧
    getField2
        (createEnum [("A", JsVal.obj [])]
          [("defaultFields",
            JsVal.obj [("name", JsVal.str "Z"), ("index", JsVal.num 9)])])
        "A" "index" = JsVal.num 0 := by
  have h := claim5_computed_beats_defaults [("A", JsVal.obj [])]
    [("defaultFields", JsVal.obj [("name", JsVal.str "Z"), ("index", JsVal.num 9)])]
    [("name", JsVal.str "Z"), ("index", JsVal.num 9)] (by decide) rfl 0 (by decide)
  exact ⟨rfl, h.1 (by decide) (by decide), h.2 (by decide) (by decide)⟩

/-- C6: a key with an empty spec gets exactly `{...defaultFields, name,
index}` — the defaults overlaid in place with the computed fields, and
nothing else; with no defaultFields the entry is exactly
`{name: key, index: i}`. -/
theorem claim6_empty_spec (obj options dfs : JsObj) (hnd : (keysF obj).Nodup)
    (i : Nat) (hi : i < obj.length)
    (hempty : (obj.get ⟨i, hi⟩).2 = JsVal.obj []) :
    (getField options "defaultFields" = JsVal.obj dfs → (keysF dfs).Nodup →
      getF? (createEnum obj options) (obj.get ⟨i, hi⟩).1
        = some (JsVal.obj
            (setF (setF dfs "name" (JsVal.str (obj.get ⟨i, hi⟩).1)) "index"
              (JsVal.num i)))) ∧
    (getField options "defaultFields" = JsVal.undef →
      getF? (createEnum obj options) (obj.get ⟨i, hi⟩).1
        = some (JsVal.obj
            [("name", JsVal.str (obj.get ⟨i, hi⟩).1),
             ("index", JsVal.num i)])) := by
  have h := createEnum_entry obj options hnd i hi
  rw [hempty] at h
  constructor
  · intro hdf hdnd
    rw [hdf] at h
    have hdfs : spreadInto [] (JsVal.obj dfs) = dfs := by
      simpa [spreadInto] using spreadF_eq_append [] dfs hdnd (by simp)
    have : mkEntry (JsVal.obj dfs) (obj.get ⟨i, hi⟩).1 i (JsVal.obj [])
        = setF (setF dfs "name" (JsVal.str (obj.get ⟨i, hi⟩).1)) "index"
            (JsVal.num i) := by
      unfold mkEntry
      rw [hdfs]
      rfl
    rw [this] at h
    exact h
  · intro hdf
    rw [hdf] at h
    have hni : "index" ∉ keysF [("name", JsVal.str (obj.get ⟨i, hi⟩).1)] := by
      rw [show keysF [("name", JsVal.str (obj.get ⟨i, hi⟩).1)] = ["name"] from rfl]
      decide
    have hme : mkEntry JsVal.undef (obj.get ⟨i, hi⟩).1 i (JsVal.obj [])
        = [("name", JsVal.str (obj.get ⟨i, hi⟩).1), ("index", JsVal.num i)] := by
      show setF (setF [] "name" (JsVal.str (obj.get ⟨i, hi⟩).1)) "index"
          (JsVal.num i)
        = [("name", JsVal.str (obj.get ⟨i, hi⟩).1), ("index", JsVal.num i)]
      rw [show setF ([] : JsObj) "name" (JsVal.str (obj.get ⟨i, hi⟩).1)
          = [("name", JsVal.str (obj.get ⟨i, hi⟩).1)] from rfl]
      rw [setF_eq_append _ "index" _ hni]
      rfl
    rw [hme] at h
    exact h

theorem claim6_empty_spec_witness :
    (getField [("defaultFields", JsVal.obj [("canEdit", JsVal.boolV false)])]
        "defaultFields" = JsVal.obj [("canEdit", JsVal.boolV false)]) ∧
    getF? (createEnum [("A", JsVal.obj []), ("B", JsVal.obj [])]
        [("defaultFields", JsVal.obj [("canEdit", JsVal.boolV false)])]) "B"
      = some (JsVal.obj
          (setF (setF [("canEdit", JsVal.boolV false)] "name" (JsVal.str "B"))
            "index" (JsVal.num 1))) ∧
    getF? (createEnum [("A", JsVal.obj []), ("B", JsVal.obj [])] []) "B"
      = some (JsVal.obj [("name", JsVal.str "B"), ("index", JsVal.num 1)]) := by
  have h1 := (claim6_empty_spec [("A", JsVal.obj []), ("B", JsVal.obj [])]
    [("defaultFields", JsVal.obj [("canEdit", JsVal.boolV false)])]
    [("canEdit", JsVal.boolV false)] (by decide) 1 (by decide) rfl).1 rfl
    (by decide)
  have h2 := (claim6_empty_spec [("A", JsVal.obj []), ("B", JsVal.obj [])] []
    [] (by decide) 1 (by decide) rfl).2 rfl
  exact ⟨rfl, h1, h2⟩

/-- C9: only `options.defaultFields` influences the result: two options
objects whose `defaultFields` members read equal give equal outputs, so
any other (unrecognized) option key is silently ignored. -/
theorem claim9_options_irrelevant (obj o1 o2 : JsObj)
    (h : getField o1 "defaultFields" = getField o2 "defaultFields") :
    createEnum obj o1 = createEnum obj o2 := by
  unfold createEnum
  rw [h]

theorem claim9_options_irrelevant_witness :
    (getField [("defaultFields", JsVal.obj [("x", JsVal.num 1)]),
        ("extra", JsVal.boolV true)] "defaultFields"
      = getField [("defaultFields", JsVal.obj [("x", JsVal.num 1)])]
        "defaultFields") ∧
    createEnum [("A", JsVal.obj [])]
        [("defaultFields", JsVal.obj [("x", JsVal.num 1)]),
          ("extra", JsVal.boolV true)]
      = createEnum [("A", JsVal.obj [])]
        [("defaultFields", JsVal.obj [("x", JsVal.num 1)])] :=
  ⟨rfl,
    claim9_options_irrelevant [("A", JsVal.obj [])]
      [("defaultFields", JsVal.obj [("x", JsVal.num 1)]),
        ("extra", JsVal.boolV true)]
      [("defaultFields", JsVal.obj [("x", JsVal.num 1)])] rfl⟩

/-- C10: precedence is decided by key presence, not value: a spec field
explicitly bound to undefined still shadows a defined default, and the
field remains a present key of the output entry. -/
theorem claim10_undef_shadows (obj options dfs : JsObj)
    (hnd : (keysF obj).Nodup)
    (hdf : getField options "defaultFields" = JsVal.obj dfs)
    (i : Nat) (hi : i < obj.length) (spec : JsObj)
    (hspec : (obj.get ⟨i, hi⟩).2 = JsVal.obj spec)
    (hsnd : (keysF spec).Nodup) (f : String)
    (hf : (f, JsVal.undef) ∈ spec) (w : JsVal) (hw : (f, w) ∈ dfs)
    (hwd : w ≠ JsVal.undef) :
    getField2 (createEnum obj options) (obj.get ⟨i, hi⟩).1 f = JsVal.undef ∧
    getF? (createEnum obj options) (obj.get ⟨i, hi⟩).1
      = some (JsVal.obj
          (mkEntry (JsVal.obj dfs) (obj.get ⟨i, hi⟩).1 i (JsVal.obj spec))) ∧
    f ∈ keysF (mkEntry (JsVal.obj dfs) (obj.get ⟨i, hi⟩).1 i (JsVal.obj spec)) := by
  have h := createEnum_entry obj options hnd i hi
  rw [hspec, hdf] at h
  refine ⟨?_, h, ?_⟩
  · rw [getField2_of_entry h]
    exact getField_of_getF? (mkEntry_spec_mem _ _ _ spec hsnd f JsVal.undef hf)
  · apply mem_keysF_mkEntry
    show f ∈ spreadKeys (JsVal.obj spec)
    exact List.mem_map_of_mem Prod.fst hf

theorem claim10_undef_shadows_witness :
    (getField [("defaultFields", JsVal.obj [("f", JsVal.num 5)])]
        "defaultFields" = JsVal.obj [("f", JsVal.num 5)]) ∧
    (("f", JsVal.undef) ∈ ([("f", JsVal.undef)] : JsObj)) ∧
    (("f", JsVal.num 5) ∈ ([("f", JsVal.num 5)] : JsObj)) ∧
    (getField2 (createEnum [("A", JsVal.obj [("f", JsVal.undef)])]
        [("defaultFields", JsVal.obj [("f", JsVal.num 5)])]) "A" "f"
      = JsVal.undef ∧
    getF? (createEnum [("A", JsVal.obj [("f", JsVal.undef)])]
        [("defaultFields", JsVal.obj [("f", JsVal.num 5)])]) "A"
      = some (JsVal.obj
          (mkEntry (JsVal.obj [("f", JsVal.num 5)]) "A" 0
            (JsVal.obj [("f", JsVal.undef)]))) ∧
    "f" ∈ keysF (mkEntry (JsVal.obj [("f", JsVal.num 5)]) "A" 0
      (JsVal.obj [("f", JsVal.undef)]))) :=
  ⟨rfl, by simp, by simp,
    claim10_undef_shadows [("A", JsVal.obj [("f", JsVal.undef)])]
      [("defaultFields", JsVal.obj [("f", JsVal.num 5)])]
      [("f", JsVal.num 5)] (by decide) rfl 0 (by decide)
      [("f", JsVal.undef)] rfl (by decide) "f" (by simp) (JsVal.num 5)
      (by simp) (fun h => JsVal.noConfusion h)⟩

theorem getF?_append_of_mem {α : Type} (t s : List (String × α)) (k : String)
    (h : k ∈ keysF t) : getF? (t ++ s) k = getF? t k := by
  induction t with
  | nil => cases h
  | cons p t ih =>
    by_cases hp : p.1 = k
    · simp [getF?, hp]
    · have h' : k ∈ keysF t := by
        rcases List.mem_cons.1 h with h1 | h1
        · exact absurd h1.symm hp
        · exact h1
      simp [getF?, hp, ih h']

theorem getF?_append_of_not_mem {α : Type} (t s : List (String × α))
    (k : String) (h : k ∉ keysF t) : getF? (t ++ s) k = getF? s k := by
  induction t with
  | nil => simp
  | cons p t ih =>
    simp only [keysF_cons, List.mem_cons] at h
    push_neg at h
    have hp : ¬p.1 = k := fun hh => h.1 hh.symm
    simpa [getF?, hp] using ih h.2

theorem assoc_val_unique {α : Type} (l : List (String × α))
    (hnd : (keysF l).Nodup) (k : String) (v1 v2 : α)
    (h1 : (k, v1) ∈ l) (h2 : (k, v2) ∈ l) : v1 = v2 := by
  induction l with
  | nil => cases h1
  | cons p l ih =>
    simp only [keysF_cons, List.nodup_cons] at hnd
    rcases List.mem_cons.1 h1 with rfl | h1'
    · rcases List.mem_cons.1 h2 with h2' | h2'
      · exact (congrArg Prod.snd h2').symm
      · exact absurd (List.mem_map_of_mem Prod.fst h2') hnd.1
    · rcases List.mem_cons.1 h2 with rfl | h2'
      · exact absurd (List.mem_map_of_mem Prod.fst h1') hnd.1
      · exact ih hnd.2 h1' h2'

/-- A value in the heap model: a primitive, or a reference to the object
at a numeric heap address. -/
inductive HVal : Type where
  | undef : HVal
  | nullV : HVal
  | boolV (b : Bool) : HVal
  | num (n : Int) : HVal
  | str (s : String) : HVal
  | ref (a : Nat) : HVal
deriving DecidableEq

/-- An object record in the heap model. -/
abbrev HRec := List (String × HVal)

/-- The heap: one object record per address; allocation appends at the
end, and no operation of the program ever writes an existing cell. -/
abbrev JsHeap := List HRec

/-- Dereference an address (total for convenience; every address the
program dereferences is valid in the theorems below). -/
def readObj (h : JsHeap) (a : Nat) : HRec :=
  (h[a]?).getD []

/-- Property read on a record. -/
def hGetField (r : HRec) (k : String) : HVal :=
  (getF? r k).getD HVal.undef

/-- Fields contributed by spreading a string, heap model. -/
def hStrFields (s : String) : HRec :=
  s.data.enum.map (fun p => (toString p.1, HVal.str (String.mk [p.2])))

/-- Spread of a value into an object literal, heap model: a reference
contributes the current fields of the referenced object (values copied
shallowly, so nested references are shared). -/
def hSpreadInto (h : JsHeap) (t : HRec) : HVal → HRec
  | HVal.ref a => spreadF t (readObj h a)
  | HVal.str s => spreadF t (hStrFields s)
  | _ => t

/-- Allocate a fresh object: append the record, return its address. -/
def allocH (h : JsHeap) (r : HRec) : JsHeap × Nat :=
  (h ++ [r], h.length)

/-- The record built by the entry literal
`{...options.defaultFields, name: key, index, ...value}` in heap `hc`,
with `optA` the address of the options object. -/
def entryRecH (hc : JsHeap) (optA : Nat) (key : String) (index : Nat)
    (value : HVal) : HRec :=
  hSpreadInto hc
    (setF
      (setF (hSpreadInto hc [] (hGetField (readObj hc optA) "defaultFields"))
        "name" (HVal.str key))
      "index" (HVal.num index))
    value

/-- One reduce step in the heap model: evaluate the entry literal
(allocating the entry object), then the accumulator literal
`{...acc, [key]: entry}` (allocating the new accumulator object). -/
def stepH (optA : Nat) (st : JsHeap × Nat) (q : Nat × (String × HVal)) :
    JsHeap × Nat :=
  let p1 := allocH st.1 (entryRecH st.1 optA q.2.1 q.1 q.2.2)
  allocH p1.1 (setF (hSpreadInto p1.1 [] (HVal.ref st.2)) q.2.1 (HVal.ref p1.2))

/-- Heap model of `createEnum`: `obj` and `options` are passed by
reference (addresses `objA`, `optA`); `Object.entries` snapshots the
entries once; the reduce seed `{}` is a fresh empty object. Returns the
final heap and the address of the result object. -/
def createEnumH (h : JsHeap) (objA optA : Nat) : JsHeap × Nat :=
  (readObj h objA).enum.foldl (stepH optA) (allocH h [])

/-- `h2` extends `h1`: same cells at every address of `h1`. -/
def heapExtends (h2 h1 : JsHeap) : Prop :=
  h1.length ≤ h2.length ∧ ∀ a, a < h1.length → h2[a]? = h1[a]?

theorem heapExtends_refl (h : JsHeap) : heapExtends h h :=
  ⟨Nat.le_refl _, fun _ _ => rfl⟩

theorem heapExtends_trans {h3 h2 h1 : JsHeap} (h32 : heapExtends h3 h2)
    (h21 : heapExtends h2 h1) : heapExtends h3 h1 :=
  ⟨Nat.le_trans h21.1 h32.1,
    fun a ha => (h32.2 a (Nat.lt_of_lt_of_le ha h21.1)).trans (h21.2 a ha)⟩

theorem heapExtends_concat (h : JsHeap) (r : HRec) :
    heapExtends (h ++ [r]) h :=
  ⟨by simp, fun a ha => List.getElem?_append_left ha⟩

theorem readObj_extends {h2 h1 : JsHeap} (hext : heapExtends h2 h1)
    {a : Nat} (ha : a < h1.length) : readObj h2 a = readObj h1 a := by
  unfold readObj
  rw [hext.2 a ha]

theorem heapExtends_stepH (optA : Nat) (st : JsHeap × Nat)
    (q : Nat × (String × HVal)) : heapExtends (stepH optA st q).1 st.1 := by
  unfold stepH allocH
  exact heapExtends_trans (heapExtends_concat _ _) (heapExtends_concat _ _)

theorem heapExtends_foldl_stepH (optA : Nat)
    (l : List (Nat × (String × HVal))) (st : JsHeap × Nat) :
    heapExtends ((l.foldl (stepH optA) st).1) st.1 := by
  induction l generalizing st with
  | nil => exact heapExtends_refl _
  | cons q l ih =>
    rw [List.foldl_cons]
    exact heapExtends_trans (ih (stepH optA st q)) (heapExtends_stepH optA st q)

/-- Sharing of nested values: whenever the spec of key `k` in the input is
a reference to input record `rec`, the output entry for `k` is a reference
to a record whose fields include every binding of `rec` unchanged — so
nested object values are shared by reference, not deep-copied. -/
def contentInv (h : JsHeap) (entries : HRec) (hc : JsHeap) (tbl : HRec) :
    Prop :=
  ∀ k v, (k, v) ∈ entries → k ∈ keysF tbl →
    ∀ sa rec, v = HVal.ref sa → h[sa]? = some rec → (keysF rec).Nodup →
      ∃ ea erec, getF? tbl k = some (HVal.ref ea) ∧ hc[ea]? = some erec ∧
        ∀ f w, (f, w) ∈ rec → getF? erec f = some w

/-- The result-table properties claimed of the heap model: the state's
address holds a table with the input's keys, whose values are references
to pairwise-distinct addresses all freshly allocated (at or above the
input heap's length), with entry contents sharing the spec's field
values. -/
def tableOK (h : JsHeap) (entries : HRec) (st : JsHeap × Nat) : Prop :=
  ∃ tbl, (st.1)[st.2]? = some tbl ∧
    keysF tbl = keysF entries ∧
    (∃ addrs : List Nat, tbl.map Prod.snd = addrs.map HVal.ref ∧
      addrs.Nodup ∧ ∀ a ∈ addrs, h.length ≤ a ∧ a < st.1.length) ∧
    contentInv h entries st.1 tbl

theorem stepH_fold_inv (h : JsHeap) (entries : HRec) (optA : Nat)
    (hend : (keysF entries).Nodup) :
    ∀ (todo : HRec) (n : Nat) (st : JsHeap × Nat) (ptbl : HRec),
    (∀ kv ∈ todo, kv ∈ entries) →
    (keysF todo).Nodup →
    (∀ k ∈ keysF todo, k ∉ keysF ptbl) →
    heapExtends st.1 h →
    st.2 < st.1.length →
    (st.1)[st.2]? = some ptbl →
    (keysF ptbl).Nodup →
    keysF entries = keysF ptbl ++ keysF todo →
    (∃ addrs : List Nat, ptbl.map Prod.snd = addrs.map HVal.ref ∧
      addrs.Nodup ∧ ∀ a ∈ addrs, h.length ≤ a ∧ a < st.1.length) →
    contentInv h entries st.1 ptbl →
    tableOK h entries ((todo.enumFrom n).foldl (stepH optA) st) := by
  intro todo
  induction todo with
  | nil =>
    intro n st ptbl _ _ _ _ _ hget hpnd hkeq haddr hcont
    rw [List.enumFrom_nil, List.foldl_nil]
    refine ⟨ptbl, hget, ?_, haddr, hcont⟩
    simpa using hkeq.symm
  | cons q rest ih =>
    obtain ⟨k, v⟩ := q
    intro n st ptbl hsub hndt hdis hext hlt hget hpnd hkeq haddr hcont
    have hkv_mem : (k, v) ∈ entries := hsub _ (by simp)
    have hk_notin_ptbl : k ∉ keysF ptbl := hdis k (by simp)
    simp only [keysF_cons, List.nodup_cons] at hndt
    have hreadacc : readObj (st.1 ++ [entryRecH st.1 optA k n v]) st.2
        = ptbl := by
      unfold readObj
      rw [List.getElem?_append_left hlt, hget]
      rfl
    have hacc : hSpreadInto (st.1 ++ [entryRecH st.1 optA k n v]) []
        (HVal.ref st.2) = ptbl := by
      show spreadF [] (readObj (st.1 ++ [entryRecH st.1 optA k n v]) st.2)
        = ptbl
      rw [hreadacc]
      simpa using spreadF_eq_append [] ptbl hpnd (by simp)
    have hstep : stepH optA st (n, (k, v))
        = ((st.1 ++ [entryRecH st.1 optA k n v])
            ++ [ptbl ++ [(k, HVal.ref st.1.length)]],
           (st.1 ++ [entryRecH st.1 optA k n v]).length) := by
      show ((st.1 ++ [entryRecH st.1 optA k n v])
          ++ [setF (hSpreadInto (st.1 ++ [entryRecH st.1 optA k n v]) []
              (HVal.ref st.2)) k (HVal.ref st.1.length)],
         (st.1 ++ [entryRecH st.1 optA k n v]).length) = _
      rw [hacc, setF_eq_append ptbl k _ hk_notin_ptbl]
    rw [List.enumFrom_cons, List.foldl_cons, hstep]
    have hlen2 : ((st.1 ++ [entryRecH st.1 optA k n v])
        ++ [ptbl ++ [(k, HVal.ref st.1.length)]]).length
        = st.1.length + 2 := by simp
    refine ih (n + 1)
      ((st.1 ++ [entryRecH st.1 optA k n v])
          ++ [ptbl ++ [(k, HVal.ref st.1.length)]],
        (st.1 ++ [entryRecH st.1 optA k n v]).length)
      (ptbl ++ [(k, HVal.ref st.1.length)])
      (fun kv hkv => hsub kv (List.mem_cons_of_mem _ hkv))
      hndt.2 ?_ ?_ ?_ ?_ ?_ ?_ ?_ ?_
    · -- remaining keys avoid the new table's keys
      intro a ha
      rw [keysF_append]
      simp only [List.mem_append, keysF_cons, keysF_nil, List.mem_cons,
        List.not_mem_nil, or_false]
      rintro (h1 | rfl)
      · exact hdis a (by simp [ha]) h1
      · exact hndt.1 ha
    · -- heap extension
      exact heapExtends_trans
        (heapExtends_trans (heapExtends_concat _ _) (heapExtends_concat _ _))
        hext
    · -- the new accumulator address is valid
      simp
    · -- the new accumulator record sits at the new address
      exact List.getElem?_concat_length _ _
    · -- keys of the new table are distinct
      rw [keysF_append]
      refine List.Nodup.append hpnd (by simp) ?_
      intro a ha hb
      simp only [keysF_cons, keysF_nil, List.mem_cons, List.not_mem_nil,
        or_false] at hb
      exact hk_notin_ptbl (hb ▸ ha)
    · -- the key-split equation advances by one key
      rw [hkeq, keysF_append]
      simp
    · -- fresh, distinct entry addresses
      obtain ⟨addrs, ha1, ha2, ha3⟩ := haddr
      refine ⟨addrs ++ [st.1.length], ?_, ?_, ?_⟩
      · simp [ha1]
      · refine List.Nodup.append ha2 (by simp) ?_
        intro a ha hb
        simp only [List.mem_cons, List.not_mem_nil, or_false] at hb
        exact absurd ((hb ▸ (ha3 a ha).2) : st.1.length < st.1.length)
          (Nat.lt_irrefl _)
      · intro a ha
        rw [hlen2]
        rcases List.mem_append.1 ha with h1 | h1
        · have hb := (ha3 a h1).2
          exact ⟨(ha3 a h1).1, by omega⟩
        · simp only [List.mem_cons, List.not_mem_nil, or_false] at h1
          subst h1
          exact ⟨hext.1, by omega⟩
    · -- content: old entries are untouched, the new one shares its spec
      intro k' v' hk'mem hk'keys sa rec hv' hrec hrecnd
      rw [keysF_append] at hk'keys
      rcases List.mem_append.1 hk'keys with hink | hin1
      · obtain ⟨ea', erec, hh1, hh2, hh3⟩ :=
          hcont k' v' hk'mem hink sa rec hv' hrec hrecnd
        have hea' : ea' < st.1.length := by
          rcases List.getElem?_eq_some.1 hh2 with ⟨hh, _⟩
          exact hh
        refine ⟨ea', erec, ?_, ?_, hh3⟩
        · rw [getF?_append_of_mem _ _ _ hink]
          exact hh1
        · rw [List.getElem?_append_left (by simp; omega),
            List.getElem?_append_left hea']
          exact hh2
      · simp only [keysF_cons, keysF_nil, List.mem_cons, List.not_mem_nil,
          or_false] at hin1
        subst hin1
        have hvv : v' = v := assoc_val_unique entries hend k' v' v hk'mem hkv_mem
        subst hvv
        have hsa : sa < h.length := by
          rcases List.getElem?_eq_some.1 hrec with ⟨hh, _⟩
          exact hh
        refine ⟨st.1.length, entryRecH st.1 optA k' n v', ?_, ?_, ?_⟩
        · rw [getF?_append_of_not_mem _ _ _ hk_notin_ptbl]
          simp [getF?]
        · rw [List.getElem?_append_left (by simp)]
          exact List.getElem?_concat_length _ _
        · intro f w hfw
          show getF? (hSpreadInto st.1 _ v') f = some w
          rw [hv']
          show getF? (spreadF _ (readObj st.1 sa)) f = some w
          have : readObj st.1 sa = rec := by
            unfold readObj
            rw [hext.2 sa hsa, hrec]
            rfl
          rw [this]
          exact getF?_spreadF_mem _ rec f w hrecnd hfw

/-- C7: the builder is pure. In the pure model it is a function of the
structure of its arguments, so structurally equal inputs give equal
outputs; in the heap model a call only allocates fresh cells, so every
object existing before the call — the entries mapping, every entry spec,
the options object and defaultFields — is unchanged in the final heap. -/
theorem claim7_pure :
    (∀ (e1 e2 o1 o2 : JsObj), e1 = e2 → o1 = o2 →
      createEnum e1 o1 = createEnum e2 o2) ∧
    (∀ (h : JsHeap) (objA optA a : Nat), a < h.length →
      ((createEnumH h objA optA).1)[a]? = h[a]?) := by
  constructor
  · intro e1 e2 o1 o2 he ho
    rw [he, ho]
  · intro h objA optA a ha
    have hext : heapExtends (createEnumH h objA optA).1 h := by
      unfold createEnumH
      exact heapExtends_trans
        (heapExtends_foldl_stepH optA _ (allocH h []))
        (heapExtends_concat h [])
    exact hext.2 a ha

theorem claim7_pure_witness :
    (createEnum [("A", JsVal.obj [])] [] = createEnum [("A", JsVal.obj [])] []) ∧
    (0 < ([[("A", HVal.undef)], []] : JsHeap).length) ∧
    ((createEnumH [[("A", HVal.undef)], []] 0 1).1)[0]?
      = ([[("A", HVal.undef)], []] : JsHeap)[0]? :=
  ⟨claim7_pure.1 _ _ _ _ rfl rfl, by decide,
    claim7_pure.2 [[("A", HVal.undef)], []] 0 1 0 (by decide)⟩

/-- C8: the output table maps the input's keys to references to pairwise
distinct, freshly allocated objects — so no output entry aliases another
output entry, an input spec object or the defaultFields object (those all
live at addresses below the input heap's length) — while every field of a
spec record reaches the output entry with its value unchanged, so nested
object values are shared by reference rather than deep-copied. -/
theorem claim8_fresh_entries (h : JsHeap) (objA optA : Nat) (entries : HRec)
    (hobj : h[objA]? = some entries) (hnd : (keysF entries).Nodup) :
    keysF (readObj (createEnumH h objA optA).1 (createEnumH h objA optA).2)
      = keysF entries ∧
    (∃ addrs : List Nat,
      (readObj (createEnumH h objA optA).1
          (createEnumH h objA optA).2).map Prod.snd
        = addrs.map HVal.ref ∧
      addrs.Nodup ∧
      ∀ a ∈ addrs, h.length ≤ a ∧ a < (createEnumH h objA optA).1.length) ∧
    contentInv h entries (createEnumH h objA optA).1
      (readObj (createEnumH h objA optA).1 (createEnumH h objA optA).2) := by
  have hro : readObj h objA = entries := by
    unfold readObj
    rw [hobj]
    rfl
  have hinit := stepH_fold_inv h entries optA hnd entries 0 (allocH h []) []
    (fun kv hkv => hkv) hnd (by simp) (heapExtends_concat h [])
    (by simp [allocH]) (List.getElem?_concat_length _ _) (by simp)
    (by simp) ⟨[], by simp, by simp, by simp⟩
    (by intro k v _ hk; simp [keysF] at hk)
  have hres : createEnumH h objA optA
      = (entries.enumFrom 0).foldl (stepH optA) (allocH h []) := by
    unfold createEnumH
    rw [hro]
    rfl
  obtain ⟨tbl, h1, h2, h3, h4⟩ := hinit
  rw [hres]
  have hrd : readObj ((entries.enumFrom 0).foldl (stepH optA) (allocH h [])).1
      ((entries.enumFrom 0).foldl (stepH optA) (allocH h [])).2 = tbl := by
    unfold readObj
    rw [h1]
    rfl
  rw [hrd]
  exact ⟨h2, h3, h4⟩

theorem claim8_fresh_entries_witness :
    (([[("A", HVal.ref 1)], [("x", HVal.num 1)], []] : JsHeap)[0]?
      = some [("A", HVal.ref 1)]) ∧
    ((keysF [("A", HVal.ref 1)]).Nodup) ∧
    (keysF (readObj
        (createEnumH [[("A", HVal.ref 1)], [("x", HVal.num 1)], []] 0 2).1
        (createEnumH [[("A", HVal.ref 1)], [("x", HVal.num 1)], []] 0 2).2)
      = keysF [("A", HVal.ref 1)] ∧
    (∃ addrs : List Nat,
      (readObj
          (createEnumH [[("A", HVal.ref 1)], [("x", HVal.num 1)], []] 0 2).1
          (createEnumH [[("A", HVal.ref 1)], [("x", HVal.num 1)], []] 0
            2).2).map Prod.snd
        = addrs.map HVal.ref ∧
      addrs.Nodup ∧
      ∀ a ∈ addrs,
        ([[("A", HVal.ref 1)], [("x", HVal.num 1)], []] : JsHeap).length ≤ a ∧
        a < (createEnumH [[("A", HVal.ref 1)], [("x", HVal.num 1)], []] 0
          2).1.length) ∧
    contentInv [[("A", HVal.ref 1)], [("x", HVal.num 1)], []]
      [("A", HVal.ref 1)]
      (createEnumH [[("A", HVal.ref 1)], [("x", HVal.num 1)], []] 0 2).1
      (readObj
        (createEnumH [[("A", HVal.ref 1)], [("x", HVal.num 1)], []] 0 2).1
        (createEnumH [[("A", HVal.ref 1)], [("x", HVal.num 1)], []] 0 2).2)) :=
  ⟨by decide, by decide,
    claim8_fresh_entries [[("A", HVal.ref 1)], [("x", HVal.num 1)], []] 0 2
      [("A", HVal.ref 1)] (by decide) (by decide)⟩
